import Mathlib

/-!
Verification development for the `rimpub` publishing tool.

The publish pipeline of `src/cli/publish.rs` is shallowly embedded here:
paths are lists of components, the filesystem is an association list from
paths to nodes, and the gitignore-style matcher is an abstract boolean
predicate on relative paths (the union of all rule layers).  The hard-coded
filename denylist of the `filter_entry` closure, the walk/copy loop, the
orchestration in `PublishArgs::run`, the build trigger, and `Config::set`
from `src/cli/config.rs` are translated definition by definition.
-/

namespace Rimpub

/-- A filesystem path, as its list of components. -/
abbrev Path := List String

/-- `[a]`, `[a,b]`, ..., `p` itself: every nonempty prefix of `p`,
shallowest first (the chain `fs::create_dir_all` creates). -/
def nePrefixes : Path → List Path
  | [] => []
  | a :: as => [a] :: (nePrefixes as).map (a :: ·)

/-! ### Filesystem model

A destination filesystem is an association list from paths to nodes; the
first binding for a path wins, so inserting shadows (models overwriting). -/

/-- A node in the destination tree: a directory or a file with byte content. -/
inductive FsNode
  | dir
  | file (content : List Nat)
deriving DecidableEq

def lookupList : List (Path × FsNode) → Path → Option FsNode
  | [], _ => none
  | (q, n) :: rest, p => if q = p then some n else lookupList rest p

structure FS where
  entries : List (Path × FsNode)
deriving DecidableEq

def FS.empty : FS := ⟨[]⟩

def FS.lookup (fs : FS) (p : Path) : Option FsNode :=
  lookupList fs.entries p

/-- Model of `Path::exists` against the destination. -/
def FS.pathExists (fs : FS) (p : Path) : Bool :=
  (fs.lookup p).isSome

/-- Writing a file (or creating a directory node): the new binding shadows
any previous one, which models `fs::copy` overwriting. -/
def FS.insert (fs : FS) (p : Path) (n : FsNode) : FS :=
  ⟨(p, n) :: fs.entries⟩

/-- Model of `fs::remove_dir_all p`: drop `p` and everything below it. -/
def FS.removeSubtree (fs : FS) (p : Path) : FS :=
  ⟨fs.entries.filter (fun q => !(p.isPrefixOf q.1))⟩

def mkdirsAux (fs : FS) : List Path → FS
  | [] => fs
  | r :: rs => mkdirsAux (if fs.pathExists r then fs else fs.insert r .dir) rs

/-- Model of `fs::create_dir_all p`: create every missing ancestor of `p`
and `p` itself, as directories; existing nodes are left alone. -/
def FS.mkdirs (fs : FS) (p : Path) : FS :=
  mkdirsAux fs (nePrefixes p)

/-- Extensional equality of filesystems: same content at every path. -/
def FS.equiv (a b : FS) : Prop := ∀ p : Path, a.lookup p = b.lookup p

/-- Well-formedness of a real filesystem: an existing path's (nonempty)
ancestors exist.  Rules out orphan entries the association list could hold. -/
def FS.wf (fs : FS) : Prop :=
  ∀ p q : Path, p ≠ [] → p <+: q → (fs.lookup q).isSome → (fs.lookup p).isSome

/-! ### Character-level string helpers

The Rust code trims, lowercases and splits strings; these are modelled
structurally over the character list of a `String` so they compute. -/

/-- Leading and trailing whitespace removed (`str::trim`). -/
def trimChars (cs : List Char) : List Char :=
  ((cs.dropWhile Char.isWhitespace).reverse.dropWhile Char.isWhitespace).reverse

/-- `str::to_lowercase` (on the ASCII range this tool compares against). -/
def toLowerStr (s : String) : String :=
  String.mk (s.data.map Char.toLower)

/-- The groups obtained by splitting at every `.` (`str::split('.')`). -/
def splitOnDot (cs : List Char) : List (List Char) :=
  match cs with
  | [] => [[]]
  | c :: rest =>
    let r := splitOnDot rest
    if c = '.' then [] :: r
    else
      match r with
      | [] => [[c]]
      | g :: gs => (c :: g) :: gs

/-! ### util.rs -/

/-- `util::confirm`: read a line and accept exactly `y`/`yes` after
trimming and lowercasing (`matches!(input.trim().to_lowercase(), "y"|"yes")`).
The prompt text plays no role; the stdin line is the argument. -/
def confirm (input : String) : Bool :=
  let t := (trimChars input.data).map Char.toLower
  t == "y".data || t == "yes".data

/-! ### publish.rs: constants, source entries, the ignore-filtered walk -/

def PUBLISH_CONFIG_FILE_NAME : String := "rimpub.toml"

def PUBLISH_IGNORE_FILE_NAME : String := ".rimpub-ignore"

/-- The filenames unconditionally rejected by the `filter_entry` closure of
`PublishArgs::run`. -/
def denylist : List String :=
  [".gitignore", ".git", PUBLISH_IGNORE_FILE_NAME, PUBLISH_CONFIG_FILE_NAME]

/-- The `filter_entry` closure: keep an entry unless its file name
(`path.file_name()...unwrap_or("")`) is one of the four literal names. -/
def filter_entry (rel : Path) : Bool :=
  !(denylist.contains (rel.getLastD ""))

/-- The type a `DirEntry` reports: directory, regular file, or other
(symlink etc., which `copy_entry` silently skips). -/
inductive FType
  | dir
  | file
  | other
deriving DecidableEq

/-- One filesystem object of the source tree, at path `rel` relative to the
walk root (`rel = []` is the root itself).  `content` is the byte content
for files; `readable = false` makes `fs::copy` fail for this file. -/
structure SrcEntry where
  rel : Path
  ftype : FType
  content : List Nat
  readable : Bool
deriving DecidableEq

/-- An entry survives the layered ignore rules (`ign`, the union of the
gitignore/exclude/global/custom layers configured on the `WalkBuilder`) and
the `filter_entry` denylist exactly when every nonempty prefix of its
relative path does: an excluded directory prunes its whole subtree. -/
def included (ign : Path → Bool) (rel : Path) : Bool :=
  (nePrefixes rel).all fun p => !(ign p) && filter_entry p

/-- The entries the configured walker yields, in tree order. -/
def walkYield (tree : List SrcEntry) (ign : Path → Bool) : List SrcEntry :=
  tree.filter fun e => included ign e.rel

/-- `publish::copy_entry`: skip the walk root, create directories
(idempotently, parents included), copy files after ensuring the parent
chain, silently skip anything else.  Returns the new destination and
whether this entry errored (a failed `fs::copy`). -/
def copy_entry (e : SrcEntry) (destRoot : Path) (fs : FS) : FS × Bool :=
  if e.rel = [] then (fs, false)
  else
    let target := destRoot ++ e.rel
    match e.ftype with
    | .dir => (if fs.pathExists target then fs else fs.mkdirs target, false)
    | .file =>
      let fs1 := fs.mkdirs target.dropLast
      if e.readable then (fs1.insert target (.file e.content), false) else (fs1, true)
    | .other => (fs, false)

/-- The `for result in walker` loop of `PublishArgs::run`: walk errors and
failed copies set `any_err` but never stop the iteration. -/
def runWalkLoop (results : List (Except String SrcEntry)) (destRoot : Path) (fs : FS) :
    FS × Bool :=
  match results with
  | [] => (fs, false)
  | .ok e :: rest =>
    let step := copy_entry e destRoot fs
    let r := runWalkLoop rest destRoot step.1
    (r.1, step.2 || r.2)
  | .error _ :: rest =>
    let r := runWalkLoop rest destRoot fs
    (r.1, true)

/-- What the walker hands to the loop when every entry is statable. -/
def walkResults (tree : List SrcEntry) (ign : Path → Bool) :
    List (Except String SrcEntry) :=
  (walkYield tree ign).map .ok

/-- The whole mirror step: ignore-filtered walk plus copy loop. -/
def mirrorPhase (tree : List SrcEntry) (ign : Path → Bool) (destRoot : Path)
    (fs : FS) : FS × Bool :=
  runWalkLoop (walkResults tree ign) destRoot fs

/-! ### publish.rs: build trigger -/

/-- An immediate child of the working directory, as `fs::read_dir` reports
it: a file name and whether it is a regular file. -/
structure DirEnt where
  name : String
  isFile : Bool
deriving DecidableEq

/-- `Path::extension` of a file name: the part after the final `.`, absent
when there is no `.` or the name is a dotfile with no further `.`. -/
def rustExt (name : String) : Option String :=
  match splitOnDot name.data with
  | [] => none
  | [_] => none
  | [[], _] => none
  | ps => ps.getLast?.map String.mk

/-- `publish::find_sln_file`: the first immediate, non-recursive child that
is a regular file with extension `sln`. -/
def find_sln_file (entries : List DirEnt) : Option DirEnt :=
  entries.find? fun e => e.isFile && rustExt e.name == some "sln"

/-- The observable behaviour of the spawned `dotnet build` process. -/
structure BuildResult where
  launched : Bool
  exitSuccess : Bool
  stdout : List Nat
  stderr : List Nat

/-- `publish::execute_dotnet_build`: success is the process exit status
alone; on failure the error carries the decoded stderr (`decode_out`,
passed in because it is platform-conditional). -/
def execute_dotnet_build (b : BuildResult) (decode : List Nat → String) :
    Except String Unit :=
  if !b.launched then .error "Failed to execute dotnet build"
  else if b.exitSuccess then .ok ()
  else .error ("Project build failed:\n" ++ decode b.stderr)

/-! ### publish.rs: orchestration -/

/-- `publish::PublishConf`: the project config file's single field. -/
structure PublishConf where
  name : String
deriving DecidableEq

/-- The process-wide configuration as `PublishArgs::run` consumes it
(`Config::get_clone().path_mods` and `.no_ask`). -/
structure GlobalConfig where
  path_mods : Option Path
  no_ask : Bool

/-- Reading `rimpub.toml`: absent file means the default config; a present
file either parses or aborts the publish. -/
def resolveConf (conf_file : Option (Except String PublishConf)) :
    Except String PublishConf :=
  match conf_file with
  | some r => r
  | none => .ok ⟨""⟩

/-- Name fallback of `PublishArgs::run`: an empty configured name is
replaced by the working directory's base name, and failure to obtain one
is an error. -/
def resolveName (conf : PublishConf) (working_directory : Path) :
    Except String String :=
  if conf.name = "" then
    match working_directory.getLast? with
    | some n => .ok n
    | none => .error "Didn't configure 'name' and failed to get working directory name"
  else .ok conf.name

/-- Destination resolution: the `--target-dir` override, else the global
config's mods path, else a configuration error; the project name becomes
the final path segment. -/
def resolveTarget (target_dir : Option Path) (cfg : GlobalConfig) (name : String) :
    Except String Path :=
  match target_dir with
  | some t => .ok (t ++ [name])
  | none =>
    match cfg.path_mods with
    | some m => .ok (m ++ [name])
    | none => .error "Cannot determine target directory from config or args"

/-- Destination preparation: when the target exists, either the operator
confirms (or `no_ask` skips the prompt) and the target is recursively
removed, or the publish is cancelled (`none`); then the target directory
chain is created. -/
def prepareDest (dest : FS) (target : Path) (no_ask : Bool) (user_input : String) :
    Option FS :=
  if dest.pathExists target then
    if !no_ask && !(confirm user_input) then none
    else some ((dest.removeSubtree target).mkdirs target)
  else some (dest.mkdirs target)

/-- The three terminal shapes of a publish, plus fatal errors. -/
inductive Outcome
  | fatal (msg : String)
  | cancelled
  | success
  | completedWithErrors
deriving DecidableEq

/-- Everything `PublishArgs::run` reads from its surroundings. -/
structure RunInput where
  target_dir : Option Path
  config_global : GlobalConfig
  working_directory : Path
  dirents : List DirEnt
  build : BuildResult
  decode : List Nat → String
  conf_file : Option (Except String PublishConf)
  user_input : String
  tree : List SrcEntry
  ign : Path → Bool
  dest : FS

structure RunResult where
  dest : FS
  outcome : Outcome
  buildInvoked : Bool

/-- Project config parse followed by name resolution, as sequenced in
`PublishArgs::run`. -/
def nameOf (inp : RunInput) : Except String String :=
  match resolveConf inp.conf_file with
  | .error e => .error e
  | .ok c => resolveName c inp.working_directory

/-- Name resolution followed by destination resolution. -/
def targetOf (inp : RunInput) : Except String Path :=
  match nameOf inp with
  | .error e => .error e
  | .ok n => resolveTarget inp.target_dir inp.config_global n

/-- The tail of `PublishArgs::run` after the build trigger: config, name,
target, destination preparation, mirror, aggregate outcome. -/
def runPost (inp : RunInput) (bi : Bool) : RunResult :=
  match targetOf inp with
  | .error e => ⟨inp.dest, .fatal e, bi⟩
  | .ok target =>
    match prepareDest inp.dest target inp.config_global.no_ask inp.user_input with
    | none => ⟨inp.dest, .cancelled, bi⟩
    | some d =>
      let r := mirrorPhase inp.tree inp.ign target d
      ⟨r.1, if r.2 then .completedWithErrors else .success, bi⟩

/-- `PublishArgs::run`: the build trigger fires first, before the project
config file is even read; its failure aborts everything. -/
def run (inp : RunInput) : RunResult :=
  match find_sln_file inp.dirents with
  | some _ =>
    match execute_dotnet_build inp.build inp.decode with
    | .error e => ⟨inp.dest, .fatal e, true⟩
    | .ok _ => runPost inp true
  | none => runPost inp false

/-- The build step does not abort: either no solution file exists, or the
spawned build succeeded. -/
def buildPasses (inp : RunInput) : Bool :=
  match find_sln_file inp.dirents with
  | none => true
  | some _ => inp.build.launched && inp.build.exitSuccess

/-! ### config.rs: the persisted global settings record -/

/-- `config::Config`: the two persisted fields. -/
structure Config where
  path_game : Option String
  no_ask : Bool
deriving DecidableEq

/-- `Config::get_path_mods`: the game path with the `Mods` segment joined. -/
def get_path_mods (c : Config) : Option String :=
  c.path_game.map (fun p => p ++ "/Mods")

/-- `str::parse::<bool>` accepts exactly `true` and `false`. -/
def parseRustBool (s : String) : Option Bool :=
  if s = "true" then some true
  else if s = "false" then some false
  else none

/-- The mutation `Config::set` applies under the write lock: lowercased key
dispatch; `path_game` stores the trimmed value, `no_ask` parses a boolean
before assigning, anything else is rejected. -/
def setAction (key value : String) (c : Config) : Except String Config :=
  if toLowerStr key = "path_game" then
    .ok { c with path_game := some (String.mk (trimChars value.data)) }
  else if toLowerStr key = "no_ask" then
    match parseRustBool value with
    | some b => .ok { c with no_ask := b }
    | none =>
      .error ("Invalid value for 'no_ask': expected a boolean, got '" ++ value ++ "'")
  else .error ("Unexpected key " ++ key ++ " provided")

/-- The in-memory singleton together with what the config file holds. -/
structure ConfigStore where
  mem : Config
  disk : Option Config
deriving DecidableEq

/-- `Config::set` via `Config::write`: run the mutation, and only on
success replace the in-memory config and save it to disk; the error, if
any, is returned alongside the store. -/
def configSet (key value : String) (st : ConfigStore) : ConfigStore × Option String :=
  match setAction key value st.mem with
  | .ok c => (⟨c, some c⟩, none)
  | .error e => (st, some e)

def okEntries (results : List (Except String SrcEntry)) : List SrcEntry :=
  results.filterMap Except.toOption

/-- Their relative paths, for the no-duplicate-paths hypothesis. -/
def okRels (results : List (Except String SrcEntry)) : List Path :=
  (okEntries results).map (·.rel)

/-! ### Concrete instances used to exercise the theorems -/

/-- A small concrete source tree: root, a directory, a file inside it and
a `.git` directory. -/
def cTree : List SrcEntry :=
  [⟨[], .dir, [], true⟩,
   ⟨["a"], .dir, [], true⟩,
   ⟨["a", "f.txt"], .file, [1, 2], true⟩,
   ⟨[".git"], .dir, [], true⟩]

/-- The trivial ignore rule set: no rule matches. -/
def cIgn : Path → Bool := fun _ => false

/-- A concrete publish invocation: target override, empty destination, no
solution file, no project config file. -/
def cInp : RunInput :=
  { target_dir := some ["mods"]
    config_global := { path_mods := some ["gm"], no_ask := false }
    working_directory := ["home", "MyMod"]
    dirents := [⟨"readme.md", true⟩]
    build := { launched := true, exitSuccess := true, stdout := [], stderr := [] }
    decode := fun _ => ""
    conf_file := none
    user_input := "n"
    tree := cTree
    ign := cIgn
    dest := FS.empty }

/-- A destination that already holds a published copy with a stale file. -/
def cDest3 : FS :=
  (FS.empty.insert ["mods", "MyMod"] .dir).insert
    ["mods", "MyMod", "stale.txt"] (.file [9])

def cInp3 : RunInput := { cInp with dest := cDest3 }

def cInp3y : RunInput := { cInp3 with user_input := "YES " }

def cInp4b : RunInput := { cInp with target_dir := none }

def cInp4c : RunInput :=
  { cInp with
    target_dir := none,
    config_global := { path_mods := none, no_ask := false } }

/-- A working directory with a failing solution build. -/
def cInp5 : RunInput :=
  { cInp with
    dirents := [⟨"proj.sln", true⟩],
    build := { launched := true, exitSuccess := false, stdout := [], stderr := [1] },
    decode := fun _ => "ERR" }

/-- A solution file together with an unparsable project config file. -/
def cInp6 : RunInput :=
  { cInp with
    dirents := [⟨"proj.sln", true⟩],
    conf_file := some (.error "parse failure") }

/-- A source tree with one unreadable file among readable ones. -/
def cTree8 : List SrcEntry :=
  [⟨[], .dir, [], true⟩,
   ⟨["good.txt"], .file, [7], true⟩,
   ⟨["bad.txt"], .file, [], false⟩]

def cInp8 : RunInput := { cInp with tree := cTree8 }

def cInp9 : RunInput := { cInp with user_input := "y" }

/-! ### Lemmas -/

theorem pref_refl (l : Path) : l <+: l := ⟨[], List.append_nil l⟩

theorem pref_nil (l : Path) : [] <+: l := ⟨l, rfl⟩

theorem pref_length {p q : Path} (h : p <+: q) : p.length ≤ q.length := by
  obtain ⟨t, rfl⟩ := h
  simp

theorem pref_cons {a : String} {p q : Path} (h : p <+: q) : a :: p <+: a :: q := by
  obtain ⟨t, rfl⟩ := h
  exact ⟨t, rfl⟩

theorem pref_cons_iff {a b : String} {p q : Path} :
    a :: p <+: b :: q ↔ a = b ∧ p <+: q := by
  constructor
  · rintro ⟨t, ht⟩
    simp only [List.cons_append, List.cons.injEq] at ht
    exact ⟨ht.1, ⟨t, ht.2⟩⟩
  · rintro ⟨rfl, h⟩
    exact pref_cons h

theorem pref_nil_right {p : Path} (h : p <+: []) : p = [] := by
  obtain ⟨t, ht⟩ := h
  exact (List.append_eq_nil.mp ht).1

theorem pref_trans {p q r : Path} (h1 : p <+: q) (h2 : q <+: r) : p <+: r := by
  obtain ⟨t1, rfl⟩ := h1
  obtain ⟨t2, rfl⟩ := h2
  exact ⟨t1 ++ t2, (List.append_assoc p t1 t2).symm⟩

theorem pref_append_left (d : Path) {p q : Path} (h : p <+: q) : d ++ p <+: d ++ q := by
  obtain ⟨t, rfl⟩ := h
  exact ⟨t, List.append_assoc d p t⟩

theorem pref_cancel_left {d p q : Path} (h : d ++ p <+: d ++ q) : p <+: q := by
  obtain ⟨t, ht⟩ := h
  rw [List.append_assoc] at ht
  exact ⟨t, List.append_cancel_left ht⟩

theorem pref_antisymm {p q : Path} (h1 : p <+: q) (h2 : q <+: p) : p = q := by
  obtain ⟨t1, ht1⟩ := h1
  have hlen : p.length = q.length :=
    Nat.le_antisymm (pref_length ⟨t1, ht1⟩) (pref_length h2)
  have hl : t1.length = 0 := by
    have hc := congrArg List.length ht1
    simp only [List.length_append] at hc
    omega
  have ht : t1 = [] := List.eq_nil_of_length_eq_zero hl
  simpa [ht] using ht1

/-- Two prefixes of a common list are comparable. -/
theorem pref_comparable {p q l : Path} (h1 : p <+: l) (h2 : q <+: l) :
    p <+: q ∨ q <+: p := by
  obtain ⟨t1, ht1⟩ := h1
  obtain ⟨t2, ht2⟩ := h2
  have key : ∀ (p q t1 t2 : Path), p ++ t1 = q ++ t2 → p <+: q ∨ q <+: p := by
    intro p
    induction p with
    | nil => intro q t1 t2 _; exact Or.inl (pref_nil q)
    | cons a as ih =>
      intro q t1 t2 h
      cases q with
      | nil => exact Or.inr (pref_nil _)
      | cons b bs =>
        simp only [List.cons_append, List.cons.injEq] at h
        rcases ih bs t1 t2 h.2 with h' | h'
        · exact Or.inl (by rw [h.1]; exact pref_cons h')
        · exact Or.inr (by rw [h.1]; exact pref_cons h')
  exact key p q t1 t2 (ht1.trans ht2.symm)

theorem pref_dropLast (l : Path) : l.dropLast <+: l := by
  cases h : l.length with
  | zero =>
    have : l = [] := List.eq_nil_of_length_eq_zero h
    simp [this, pref_refl]
  | succ n =>
    refine ⟨[l.getLast (by intro hl; simp [hl] at h)], ?_⟩
    exact List.dropLast_append_getLast _

theorem mem_nePrefixes {q p : Path} : q ∈ nePrefixes p ↔ q ≠ [] ∧ q <+: p := by
  induction p generalizing q with
  | nil =>
    simp only [nePrefixes, List.not_mem_nil, false_iff, not_and]
    intro hne hp
    exact hne (pref_nil_right hp)
  | cons a as ih =>
    simp only [nePrefixes, List.mem_cons, List.mem_map]
    constructor
    · rintro (rfl | ⟨r, hr, rfl⟩)
      · exact ⟨List.cons_ne_nil a [], ⟨as, rfl⟩⟩
      · obtain ⟨hne, hp⟩ := ih.mp hr
        exact ⟨List.cons_ne_nil a r, pref_cons hp⟩
    · rintro ⟨hne, hp⟩
      cases q with
      | nil => exact absurd rfl hne
      | cons b bs =>
        obtain ⟨rfl, hbs⟩ := pref_cons_iff.mp hp
        cases bs with
        | nil => exact Or.inl rfl
        | cons c cs =>
          exact Or.inr ⟨c :: cs, ih.mpr ⟨by simp, hbs⟩, rfl⟩

theorem self_mem_nePrefixes {p : Path} (h : p ≠ []) : p ∈ nePrefixes p :=
  mem_nePrefixes.mpr ⟨h, pref_refl p⟩

theorem isPrefixOf_iff_pref {p q : Path} : p.isPrefixOf q = true ↔ p <+: q := by
  induction p generalizing q with
  | nil => simp [List.isPrefixOf, pref_nil]
  | cons a as ih =>
    cases q with
    | nil =>
      simp only [List.isPrefixOf, Bool.false_eq_true, false_iff]
      intro h
      exact absurd (pref_nil_right h) (by simp)
    | cons b bs =>
      simp only [List.isPrefixOf, Bool.and_eq_true, beq_iff_eq, ih, pref_cons_iff]


@[simp]
theorem FS.lookup_empty (p : Path) : FS.empty.lookup p = none := rfl

@[simp]
theorem FS.lookup_insert (fs : FS) (p q : Path) (n : FsNode) :
    (fs.insert p n).lookup q = if p = q then some n else fs.lookup q := rfl

theorem lookupList_filterSubtree (l : List (Path × FsNode)) (p q : Path) :
    lookupList (l.filter fun e => !(p.isPrefixOf e.1)) q
      = if p <+: q then none else lookupList l q := by
  induction l with
  | nil => simp [lookupList]
  | cons e rest ih =>
    obtain ⟨r, n⟩ := e
    by_cases hpr : p <+: r
    · have hb : p.isPrefixOf r = true := isPrefixOf_iff_pref.mpr hpr
      by_cases hpq : p <+: q
      · simp [List.filter_cons, hb, ih, hpq]
      · have hrq : r ≠ q := fun h => hpq (h ▸ hpr)
        simp [List.filter_cons, hb, ih, hpq, lookupList, hrq]
    · have hb : p.isPrefixOf r = false := by
        rw [← Bool.not_eq_true]
        intro h
        exact hpr (isPrefixOf_iff_pref.mp h)
      rcases eq_or_ne r q with rfl | hrq
      · simp [List.filter_cons, hb, lookupList, ih, hpr]
      · by_cases hpq : p <+: q <;>
          simp [List.filter_cons, hb, ih, lookupList, hpq, hrq]

theorem FS.lookup_removeSubtree (fs : FS) (p q : Path) :
    (fs.removeSubtree p).lookup q = if p <+: q then none else fs.lookup q :=
  lookupList_filterSubtree fs.entries p q

theorem mkdirsAux_lookup_of_isSome :
    ∀ (L : List Path) (fs : FS) (q : Path), (fs.lookup q).isSome = true →
      (mkdirsAux fs L).lookup q = fs.lookup q := by
  intro L
  induction L with
  | nil => intro fs q _; rfl
  | cons r rs ih =>
    intro fs q hq
    show (mkdirsAux (if fs.pathExists r then fs else fs.insert r .dir) rs).lookup q = _
    by_cases hr : fs.pathExists r = true
    · rw [if_pos hr]
      exact ih fs q hq
    · rw [if_neg hr]
      have hrq : r ≠ q := by
        intro h
        exact hr (h ▸ hq)
      have hl : (fs.insert r .dir).lookup q = fs.lookup q := by
        rw [FS.lookup_insert, if_neg hrq]
      rw [ih _ _ (by rw [hl]; exact hq), hl]

theorem mkdirsAux_lookup_of_none :
    ∀ (L : List Path) (fs : FS) (q : Path), fs.lookup q = none →
      (mkdirsAux fs L).lookup q = if q ∈ L then some .dir else none := by
  intro L
  induction L with
  | nil =>
    intro fs q hq
    simpa [mkdirsAux] using hq
  | cons r rs ih =>
    intro fs q hq
    show (mkdirsAux (if fs.pathExists r then fs else fs.insert r .dir) rs).lookup q = _
    by_cases hrq : r = q
    · subst hrq
      have hr : ¬ fs.pathExists r = true := by
        simp [FS.pathExists, hq]
      rw [if_neg hr]
      have hl : (fs.insert r .dir).lookup r = some .dir := by
        rw [FS.lookup_insert, if_pos rfl]
      rw [mkdirsAux_lookup_of_isSome rs _ r (by rw [hl]; rfl), hl]
      simp
    · have hstep : ∀ fs' : FS, fs' = (if fs.pathExists r then fs else fs.insert r .dir) →
          fs'.lookup q = none := by
        intro fs' hfs'
        by_cases hr : fs.pathExists r = true
        · rw [hfs', if_pos hr]; exact hq
        · rw [hfs', if_neg hr, FS.lookup_insert, if_neg hrq]; exact hq
      rw [ih _ q (hstep _ rfl)]
      simp [List.mem_cons, hrq, Ne.symm hrq]

theorem FS.lookup_mkdirs_of_isSome {fs : FS} {q : Path}
    (h : (fs.lookup q).isSome = true) (p : Path) :
    (fs.mkdirs p).lookup q = fs.lookup q :=
  mkdirsAux_lookup_of_isSome (nePrefixes p) fs q h

theorem FS.lookup_mkdirs_of_none {fs : FS} {q : Path}
    (h : fs.lookup q = none) (p : Path) :
    (fs.mkdirs p).lookup q = if q ∈ nePrefixes p then some .dir else none :=
  mkdirsAux_lookup_of_none (nePrefixes p) fs q h

theorem FS.lookup_mkdirs_isSome_of_mem {fs : FS} {q p : Path}
    (h : q ∈ nePrefixes p) : ((fs.mkdirs p).lookup q).isSome = true := by
  cases hq : fs.lookup q with
  | none =>
    rw [FS.lookup_mkdirs_of_none hq, if_pos h]
    rfl
  | some n =>
    rw [FS.lookup_mkdirs_of_isSome (by rw [hq]; rfl), hq]
    rfl

theorem FS.lookup_mkdirs_of_not_mem {fs : FS} {q p : Path}
    (h : q ∉ nePrefixes p) : (fs.mkdirs p).lookup q = fs.lookup q := by
  cases hq : fs.lookup q with
  | none => rw [FS.lookup_mkdirs_of_none hq, if_neg h]
  | some n => rw [FS.lookup_mkdirs_of_isSome (by rw [hq]; rfl), hq]

/-! ### Helper lemmas about `copy_entry` -/

theorem copy_entry_root {e : SrcEntry} (h : e.rel = []) (d : Path) (fs : FS) :
    copy_entry e d fs = (fs, false) := by
  rw [copy_entry, if_pos h]

theorem copy_entry_dir {e : SrcEntry} {d : Path} {fs : FS}
    (h : ¬ e.rel = []) (hf : e.ftype = .dir) :
    copy_entry e d fs =
      (if fs.pathExists (d ++ e.rel) then fs else fs.mkdirs (d ++ e.rel), false) := by
  simp only [copy_entry, if_neg h, hf]

theorem copy_entry_file_ok {e : SrcEntry} {d : Path} {fs : FS}
    (h : ¬ e.rel = []) (hf : e.ftype = .file) (hr : e.readable = true) :
    copy_entry e d fs =
      ((fs.mkdirs (d ++ e.rel).dropLast).insert (d ++ e.rel) (.file e.content),
        false) := by
  simp only [copy_entry, if_neg h, hf, hr, if_pos]

theorem copy_entry_file_bad {e : SrcEntry} {d : Path} {fs : FS}
    (h : ¬ e.rel = []) (hf : e.ftype = .file) (hr : e.readable = false) :
    copy_entry e d fs = (fs.mkdirs (d ++ e.rel).dropLast, true) := by
  simp only [copy_entry, if_neg h, hf, hr]
  rfl

theorem copy_entry_other {e : SrcEntry} {d : Path} {fs : FS}
    (h : ¬ e.rel = []) (hf : e.ftype = .other) :
    copy_entry e d fs = (fs, false) := by
  simp only [copy_entry, if_neg h, hf]

theorem copy_entry_err {e : SrcEntry} {d : Path} {fs : FS} :
    (copy_entry e d fs).2 = true ↔
      e.rel ≠ [] ∧ e.ftype = .file ∧ e.readable = false := by
  by_cases h : e.rel = []
  · simp [copy_entry_root h, h]
  · cases hf : e.ftype
    · simp [copy_entry_dir h hf, h, hf]
    · cases hr : e.readable
      · simp [copy_entry_file_bad h hf hr, h, hf]
      · simp [copy_entry_file_ok h hf hr, h, hf, hr]
    · simp [copy_entry_other h hf, h, hf]

/-- A binding survives `copy_entry` unless the entry is a readable file
aimed exactly at that path. -/
theorem copy_entry_preserve_some {e : SrcEntry} {d : Path} {fs : FS} {q : Path}
    {v : FsNode} (hv : fs.lookup q = some v)
    (hg : e.rel ≠ [] → e.ftype = .file → e.readable = true → d ++ e.rel ≠ q) :
    (copy_entry e d fs).1.lookup q = some v := by
  have hs : (fs.lookup q).isSome = true := by rw [hv]; rfl
  by_cases h : e.rel = []
  · rw [copy_entry_root h]; exact hv
  · cases hf : e.ftype
    · rw [copy_entry_dir h hf]
      by_cases he : fs.pathExists (d ++ e.rel)
      · simpa [he] using hv
      · simpa [he, FS.lookup_mkdirs_of_isSome hs] using hv
    · cases hr : e.readable
      · rw [copy_entry_file_bad h hf hr]
        simpa [FS.lookup_mkdirs_of_isSome hs] using hv
      · rw [copy_entry_file_ok h hf hr]
        have hne : d ++ e.rel ≠ q := hg h hf hr
        show ((fs.mkdirs (d ++ e.rel).dropLast).insert (d ++ e.rel)
          (.file e.content)).lookup q = some v
        rw [FS.lookup_insert, if_neg hne, FS.lookup_mkdirs_of_isSome hs]
        exact hv
    · rw [copy_entry_other h hf]; exact hv

theorem copy_entry_isSome {e : SrcEntry} {d : Path} {fs : FS} {q : Path}
    (hs : (fs.lookup q).isSome = true) :
    ((copy_entry e d fs).1.lookup q).isSome = true := by
  by_cases h : e.rel = []
  · rw [copy_entry_root h]; exact hs
  · cases hf : e.ftype
    · rw [copy_entry_dir h hf]
      by_cases he : fs.pathExists (d ++ e.rel)
      · simpa [he] using hs
      · simpa [he, FS.lookup_mkdirs_of_isSome hs] using hs
    · cases hr : e.readable
      · rw [copy_entry_file_bad h hf hr]
        show (((fs.mkdirs (d ++ e.rel).dropLast)).lookup q).isSome = true
        rw [FS.lookup_mkdirs_of_isSome hs]
        exact hs
      · rw [copy_entry_file_ok h hf hr]
        show (((fs.mkdirs (d ++ e.rel).dropLast).insert (d ++ e.rel)
          (.file e.content)).lookup q).isSome = true
        rw [FS.lookup_insert]
        by_cases hne : d ++ e.rel = q
        · simp [hne]
        · rw [if_neg hne, FS.lookup_mkdirs_of_isSome hs]
          exact hs
    · rw [copy_entry_other h hf]; exact hs

/-- Whatever `copy_entry` changes lies on the path chain of its target. -/
theorem copy_entry_written {e : SrcEntry} {d : Path} {fs : FS} {q : Path}
    (hch : (copy_entry e d fs).1.lookup q ≠ fs.lookup q) :
    q ≠ [] ∧ e.rel ≠ [] ∧ q <+: d ++ e.rel := by
  by_cases h : e.rel = []
  · rw [copy_entry_root h] at hch
    exact absurd rfl hch
  · refine ⟨?_, h, ?_⟩ <;>
    · cases hf : e.ftype
      · rw [copy_entry_dir h hf] at hch
        by_cases he : fs.pathExists (d ++ e.rel)
        · simp [he] at hch
        · simp only [he, if_false, Bool.false_eq_true] at hch
          have hmem : q ∈ nePrefixes (d ++ e.rel) := by
            by_contra hq
            exact hch (FS.lookup_mkdirs_of_not_mem hq)
          have := mem_nePrefixes.mp hmem
          first
            | exact this.1
            | exact this.2
      · have key : q ∈ nePrefixes ((d ++ e.rel).dropLast) ∨ q = d ++ e.rel := by
          cases hr : e.readable
          · rw [copy_entry_file_bad h hf hr] at hch
            left
            by_contra hq
            exact hch (FS.lookup_mkdirs_of_not_mem hq)
          · rw [copy_entry_file_ok h hf hr] at hch
            by_cases hqt : d ++ e.rel = q
            · right; exact hqt.symm
            · left
              rw [FS.lookup_insert, if_neg hqt] at hch
              by_contra hq
              exact hch (FS.lookup_mkdirs_of_not_mem hq)
        rcases key with hmem | rfl
        · have h2 := mem_nePrefixes.mp hmem
          first
            | exact h2.1
            | exact pref_trans h2.2 (pref_dropLast _)
        · first
            | · intro hz
                exact h (List.append_eq_nil.mp hz).2
            | exact pref_refl _
      · rw [copy_entry_other h hf] at hch
        exact absurd rfl hch

/-! ### Helper lemmas about the walk loop -/

theorem runWalkLoop_nil (d : Path) (fs : FS) : runWalkLoop [] d fs = (fs, false) := rfl

theorem runWalkLoop_ok (e : SrcEntry) (rest : List (Except String SrcEntry))
    (d : Path) (fs : FS) :
    runWalkLoop (.ok e :: rest) d fs =
      ((runWalkLoop rest d (copy_entry e d fs).1).1,
        (copy_entry e d fs).2 || (runWalkLoop rest d (copy_entry e d fs).1).2) := rfl

theorem runWalkLoop_error (s : String) (rest : List (Except String SrcEntry))
    (d : Path) (fs : FS) :
    runWalkLoop (.error s :: rest) d fs = ((runWalkLoop rest d fs).1, true) := rfl

/-- The successfully statted entries the loop receives. -/
theorem okRels_ok (e : SrcEntry) (rest : List (Except String SrcEntry)) :
    okRels (.ok e :: rest) = e.rel :: okRels rest := by
  simp [okRels, okEntries, List.filterMap_cons, Except.toOption]

theorem okRels_error (s : String) (rest : List (Except String SrcEntry)) :
    okRels (.error s :: rest) = okRels rest := by
  simp [okRels, okEntries, List.filterMap_cons, Except.toOption]

theorem rel_mem_okRels {e : SrcEntry} {results : List (Except String SrcEntry)}
    (he : .ok e ∈ results) : e.rel ∈ okRels results := by
  induction results with
  | nil => cases he
  | cons x rest ih =>
    rcases List.mem_cons.mp he with heq | he'
    · rw [← heq, okRels_ok]
      exact List.mem_cons_self _ _
    · cases x with
      | ok e0 => rw [okRels_ok]; exact List.mem_cons_of_mem _ (ih he')
      | error s => rw [okRels_error]; exact ih he'

theorem loop_isSome {results : List (Except String SrcEntry)} {d : Path} {fs : FS}
    {q : Path} (hs : (fs.lookup q).isSome = true) :
    ((runWalkLoop results d fs).1.lookup q).isSome = true := by
  induction results generalizing fs with
  | nil => exact hs
  | cons x rest ih =>
    cases x with
    | ok e => rw [runWalkLoop_ok]; exact ih (copy_entry_isSome hs)
    | error s => rw [runWalkLoop_error]; exact ih hs

/-- A binding survives the whole loop when no remaining readable file is
aimed exactly at its path. -/
theorem loop_preserve_some {results : List (Except String SrcEntry)} {d : Path}
    {fs : FS} {q : Path} {v : FsNode} (hv : fs.lookup q = some v)
    (hg : ∀ e, .ok e ∈ results → e.rel ≠ [] → e.ftype = .file →
      e.readable = true → d ++ e.rel ≠ q) :
    (runWalkLoop results d fs).1.lookup q = some v := by
  induction results generalizing fs with
  | nil => exact hv
  | cons x rest ih =>
    cases x with
    | ok e =>
      rw [runWalkLoop_ok]
      exact ih (copy_entry_preserve_some hv (hg e (List.mem_cons_self _ _)))
        (fun e' he' => hg e' (List.mem_cons_of_mem _ he'))
    | error s =>
      rw [runWalkLoop_error]
      exact ih hv (fun e' he' => hg e' (List.mem_cons_of_mem _ he'))

/-- Whatever the loop changes lies on the path chain of some yielded
entry's target. -/
theorem loop_written {results : List (Except String SrcEntry)} {d : Path} {fs : FS}
    {q : Path} (hch : (runWalkLoop results d fs).1.lookup q ≠ fs.lookup q) :
    q ≠ [] ∧ ∃ e, .ok e ∈ results ∧ e.rel ≠ [] ∧ q <+: d ++ e.rel := by
  induction results generalizing fs with
  | nil => exact absurd rfl hch
  | cons x rest ih =>
    cases x with
    | ok e =>
      rw [runWalkLoop_ok] at hch
      by_cases hstep : (copy_entry e d fs).1.lookup q = fs.lookup q
      · have hch' : (runWalkLoop rest d (copy_entry e d fs).1).1.lookup q ≠
            (copy_entry e d fs).1.lookup q := by
          rw [hstep]; exact hch
        obtain ⟨hq, e', he', h1, h2⟩ := ih hch'
        exact ⟨hq, e', List.mem_cons_of_mem _ he', h1, h2⟩
      · obtain ⟨hq, h1, h2⟩ := copy_entry_written hstep
        exact ⟨hq, e, List.mem_cons_self _ _, h1, h2⟩
    | error s =>
      rw [runWalkLoop_error] at hch
      obtain ⟨hq, e', he', h1, h2⟩ := ih hch
      exact ⟨hq, e', List.mem_cons_of_mem _ he', h1, h2⟩

/-- `any_err` is set exactly when some walk result errored or some yielded
readable check failed: a walk error or an unreadable file. -/
theorem loop_err {results : List (Except String SrcEntry)} {d : Path} {fs : FS} :
    (runWalkLoop results d fs).2 = true ↔
      (∃ s, .error s ∈ results) ∨
        ∃ e, .ok e ∈ results ∧ e.rel ≠ [] ∧ e.ftype = .file ∧
          e.readable = false := by
  induction results generalizing fs with
  | nil =>
    rw [runWalkLoop_nil]
    simp
  | cons x rest ih =>
    cases x with
    | ok e =>
      rw [runWalkLoop_ok]
      simp only [Bool.or_eq_true, copy_entry_err, ih]
      constructor
      · rintro (⟨h1, h2, h3⟩ | (⟨s, hs⟩ | ⟨e', he', h⟩))
        · exact Or.inr ⟨e, List.mem_cons_self _ _, h1, h2, h3⟩
        · exact Or.inl ⟨s, List.mem_cons_of_mem _ hs⟩
        · exact Or.inr ⟨e', List.mem_cons_of_mem _ he', h⟩
      · rintro (⟨s, hs⟩ | ⟨e', he', h⟩)
        · rcases List.mem_cons.mp hs with heq | hs'
          · exact Except.noConfusion heq
          · exact Or.inr (Or.inl ⟨s, hs'⟩)
        · rcases List.mem_cons.mp he' with heq | he''
          · rcases Except.ok.inj heq with rfl
            exact Or.inl h
          · exact Or.inr (Or.inr ⟨e', he'', h⟩)
    | error s =>
      rw [runWalkLoop_error]
      simp only [ih]
      constructor
      · intro _
        exact Or.inl ⟨s, List.mem_cons_self _ _⟩
      · intro _
        trivial

/-- Every readable yielded file lands at its target with its content, no
matter which other entries fail, provided no two yielded entries share a
relative path. -/
theorem loop_file_lands {results : List (Except String SrcEntry)} {d : Path}
    {fs : FS} {e : SrcEntry} (hnd : (okRels results).Nodup)
    (he : .ok e ∈ results) (hf : e.ftype = .file) (hr : e.readable = true)
    (hne : e.rel ≠ []) :
    (runWalkLoop results d fs).1.lookup (d ++ e.rel) = some (.file e.content) := by
  induction results generalizing fs with
  | nil => cases he
  | cons x rest ih =>
    cases x with
    | error s =>
      rw [runWalkLoop_error]
      have he' : .ok e ∈ rest := by
        rcases List.mem_cons.mp he with heq | he'
        · exact Except.noConfusion heq
        · exact he'
      rw [okRels_error] at hnd
      exact ih hnd he'
    | ok e0 =>
      rw [runWalkLoop_ok]
      rw [okRels_ok] at hnd
      rcases List.mem_cons.mp he with heq | he'
      · rcases Except.ok.inj heq with rfl
        have hstep : (copy_entry e d fs).1.lookup (d ++ e.rel) =
            some (.file e.content) := by
          rw [copy_entry_file_ok hne hf hr, FS.lookup_insert, if_pos rfl]
        apply loop_preserve_some hstep
        intro e' he'' _ _ _ hcontra
        have hrel : e'.rel = e.rel := List.append_cancel_left hcontra
        exact (List.nodup_cons.mp hnd).1 (hrel ▸ rel_mem_okRels he'')
      · exact ih (List.nodup_cons.mp hnd).2 he'

/-- `copy_entry` never turns a directory (or a hole) into a file at a path
no remaining readable file targets. -/
theorem copy_entry_noneOrDir {e : SrcEntry} {d : Path} {fs : FS} {q : Path}
    (hp : fs.lookup q = none ∨ fs.lookup q = some .dir)
    (hg : e.rel ≠ [] → e.ftype = .file → e.readable = true → d ++ e.rel ≠ q) :
    (copy_entry e d fs).1.lookup q = none ∨
      (copy_entry e d fs).1.lookup q = some .dir := by
  rcases hp with hp | hp
  · by_cases h : e.rel = []
    · rw [copy_entry_root h]
      exact Or.inl hp
    · cases hf : e.ftype
      · rw [copy_entry_dir h hf]
        by_cases he : fs.pathExists (d ++ e.rel)
        · simp only [he, if_true]
          exact Or.inl hp
        · simp only [he, if_false]
          show (fs.mkdirs (d ++ e.rel)).lookup q = none ∨
            (fs.mkdirs (d ++ e.rel)).lookup q = some .dir
          rw [FS.lookup_mkdirs_of_none hp]
          by_cases hm : q ∈ nePrefixes (d ++ e.rel) <;> simp [hm]
      · cases hr : e.readable
        · rw [copy_entry_file_bad h hf hr]
          show (fs.mkdirs (d ++ e.rel).dropLast).lookup q = none ∨
            (fs.mkdirs (d ++ e.rel).dropLast).lookup q = some .dir
          rw [FS.lookup_mkdirs_of_none hp]
          by_cases hm : q ∈ nePrefixes ((d ++ e.rel).dropLast) <;> simp [hm]
        · rw [copy_entry_file_ok h hf hr]
          have hne := hg h hf hr
          show ((fs.mkdirs (d ++ e.rel).dropLast).insert (d ++ e.rel)
              (.file e.content)).lookup q = none ∨
            ((fs.mkdirs (d ++ e.rel).dropLast).insert (d ++ e.rel)
              (.file e.content)).lookup q = some .dir
          rw [FS.lookup_insert, if_neg hne, FS.lookup_mkdirs_of_none hp]
          by_cases hm : q ∈ nePrefixes ((d ++ e.rel).dropLast) <;> simp [hm]
      · rw [copy_entry_other h hf]
        exact Or.inl hp
  · exact Or.inr (copy_entry_preserve_some hp hg)

/-- Every yielded directory entry ends up as a directory at its target,
provided the destination held no file there and no yielded readable file
shares its path. -/
theorem loop_dir_lands {results : List (Except String SrcEntry)} {d : Path}
    {fs : FS} {e : SrcEntry} (hnd : (okRels results).Nodup)
    (he : .ok e ∈ results) (hf : e.ftype = .dir) (hne : e.rel ≠ [])
    (hp : fs.lookup (d ++ e.rel) = none ∨ fs.lookup (d ++ e.rel) = some .dir) :
    (runWalkLoop results d fs).1.lookup (d ++ e.rel) = some .dir := by
  have htne : d ++ e.rel ≠ [] := by
    intro hz
    exact hne (List.append_eq_nil.mp hz).2
  induction results generalizing fs with
  | nil => cases he
  | cons x rest ih =>
    cases x with
    | error s =>
      rw [runWalkLoop_error]
      have he' : .ok e ∈ rest := by
        rcases List.mem_cons.mp he with heq | he'
        · exact Except.noConfusion heq
        · exact he'
      rw [okRels_error] at hnd
      exact ih hnd he' hp
    | ok e0 =>
      rw [runWalkLoop_ok]
      rw [okRels_ok] at hnd
      rcases List.mem_cons.mp he with heq | he'
      · rcases Except.ok.inj heq with rfl
        have hstep : (copy_entry e d fs).1.lookup (d ++ e.rel) = some .dir := by
          rw [copy_entry_dir hne hf]
          rcases hp with hp | hp
          · have hx : ¬ fs.pathExists (d ++ e.rel) = true := by
              simp [FS.pathExists, hp]
            simp only [hx, if_false]
            show (fs.mkdirs (d ++ e.rel)).lookup (d ++ e.rel) = some .dir
            rw [FS.lookup_mkdirs_of_none hp, if_pos (self_mem_nePrefixes htne)]
          · have hx : fs.pathExists (d ++ e.rel) = true := by
              simp [FS.pathExists, hp]
            simp only [hx, if_true]
            exact hp
        apply loop_preserve_some hstep
        intro e' he'' _ _ _ hcontra
        have hrel : e'.rel = e.rel := List.append_cancel_left hcontra
        exact (List.nodup_cons.mp hnd).1 (hrel ▸ rel_mem_okRels he'')
      · refine ih (List.nodup_cons.mp hnd).2 he' ?_
        apply copy_entry_noneOrDir hp
        intro _ _ _ hcontra
        have hrel : e0.rel = e.rel := List.append_cancel_left hcontra
        exact (List.nodup_cons.mp hnd).1 (hrel ▸ rel_mem_okRels he')

/-- Nothing outside the destination subtree changes, provided the chain of
the destination root already exists (as `fs::create_dir_all` guarantees). -/
theorem copy_entry_outside {e : SrcEntry} {d : Path} {fs : FS} {q : Path}
    (H : ∀ r, r ≠ [] → r <+: d → (fs.lookup r).isSome = true)
    (hq : ¬ d <+: q) :
    (copy_entry e d fs).1.lookup q = fs.lookup q := by
  by_contra hch
  obtain ⟨hq0, hrel, hpre⟩ := copy_entry_written hch
  have hqd : q <+: d := (pref_comparable hpre ⟨e.rel, rfl⟩).resolve_right hq
  obtain ⟨v, hv⟩ := Option.isSome_iff_exists.mp (H q hq0 hqd)
  refine hch ?_
  rw [hv]
  apply copy_entry_preserve_some hv
  intro _ _ _ hcontra
  exact hq (hcontra ▸ ⟨e.rel, rfl⟩)

theorem loop_outside {results : List (Except String SrcEntry)} {d : Path} {fs : FS}
    {q : Path} (H : ∀ r, r ≠ [] → r <+: d → (fs.lookup r).isSome = true)
    (hq : ¬ d <+: q) :
    (runWalkLoop results d fs).1.lookup q = fs.lookup q := by
  induction results generalizing fs with
  | nil => rfl
  | cons x rest ih =>
    cases x with
    | ok e =>
      rw [runWalkLoop_ok]
      have H' : ∀ r, r ≠ [] → r <+: d →
          (((copy_entry e d fs).1).lookup r).isSome = true :=
        fun r h1 h2 => copy_entry_isSome (H r h1 h2)
      rw [ih H', copy_entry_outside H hq]
    | error s =>
      rw [runWalkLoop_error]
      exact ih H

/-! ### Helper lemmas about the ignore-filtered walk -/

theorem mem_walkYield {tree : List SrcEntry} {ign : Path → Bool} {e : SrcEntry} :
    e ∈ walkYield tree ign ↔ e ∈ tree ∧ included ign e.rel = true := by
  simp [walkYield, List.mem_filter]

theorem included_pref {ign : Path → Bool} {rel r : Path}
    (h : included ign rel = true) (hpre : r <+: rel) :
    included ign r = true := by
  rw [included, List.all_eq_true] at *
  intro q hq
  obtain ⟨hq0, hqr⟩ := mem_nePrefixes.mp hq
  exact h q (mem_nePrefixes.mpr ⟨hq0, pref_trans hqr hpre⟩)

theorem included_filter_entry {ign : Path → Bool} {rel : Path}
    (h : included ign rel = true) (hr : rel ≠ []) :
    filter_entry rel = true := by
  rw [included, List.all_eq_true] at h
  have h2 := h rel (self_mem_nePrefixes hr)
  simp only [Bool.and_eq_true] at h2
  exact h2.2

theorem okEntries_map_ok (l : List SrcEntry) : okEntries (l.map .ok) = l := by
  induction l with
  | nil => rfl
  | cons e rest ih =>
    show okEntries (.ok e :: rest.map .ok) = e :: rest
    simp only [okEntries, List.filterMap_cons, Except.toOption]
    rw [show (List.filterMap Except.toOption (rest.map .ok)) = rest from ih]

theorem okRels_walkResults (tree : List SrcEntry) (ign : Path → Bool) :
    okRels (walkResults tree ign) = (walkYield tree ign).map (·.rel) := by
  rw [okRels, walkResults, okEntries_map_ok]

theorem ok_mem_walkResults {tree : List SrcEntry} {ign : Path → Bool} {e : SrcEntry} :
    .ok e ∈ walkResults tree ign ↔ e ∈ walkYield tree ign := by
  rw [walkResults]
  constructor
  · intro h
    obtain ⟨e', he', heq⟩ := List.mem_map.mp h
    rcases Except.ok.inj heq with rfl
    exact he'
  · intro h
    exact List.mem_map_of_mem _ h

theorem no_error_walkResults {tree : List SrcEntry} {ign : Path → Bool} {s : String} :
    .error s ∉ walkResults tree ign := by
  rw [walkResults]
  intro h
  obtain ⟨e', _, heq⟩ := List.mem_map.mp h
  exact Except.noConfusion heq

theorem nodup_okRels_walkResults {tree : List SrcEntry} {ign : Path → Bool}
    (h : (tree.map (·.rel)).Nodup) : (okRels (walkResults tree ign)).Nodup := by
  rw [okRels_walkResults]
  exact h.sublist (List.Sublist.map _ (List.filter_sublist tree))

/-! ### Congruence of the mirror under filesystem equivalence -/

theorem FS.equiv_refl (a : FS) : a.equiv a := fun _ => rfl

theorem equiv_pathExists {a b : FS} (h : a.equiv b) (p : Path) :
    a.pathExists p = b.pathExists p := by
  rw [FS.pathExists, FS.pathExists, h]

theorem equiv_insert {a b : FS} (h : a.equiv b) (p : Path) (n : FsNode) :
    (a.insert p n).equiv (b.insert p n) := by
  intro q
  rw [FS.lookup_insert, FS.lookup_insert, h]

theorem equiv_mkdirsAux : ∀ (L : List Path) {a b : FS}, a.equiv b →
    (mkdirsAux a L).equiv (mkdirsAux b L) := by
  intro L
  induction L with
  | nil => intro a b h; exact h
  | cons r rs ih =>
    intro a b h
    show (mkdirsAux (if a.pathExists r then a else a.insert r .dir) rs).equiv
      (mkdirsAux (if b.pathExists r then b else b.insert r .dir) rs)
    rw [equiv_pathExists h]
    by_cases hb : b.pathExists r = true
    · rw [if_pos hb, if_pos hb]
      exact ih h
    · rw [if_neg hb, if_neg hb]
      exact ih (equiv_insert h r .dir)

theorem equiv_mkdirs {a b : FS} (h : a.equiv b) (p : Path) :
    (a.mkdirs p).equiv (b.mkdirs p) :=
  equiv_mkdirsAux (nePrefixes p) h

theorem equiv_removeSubtree {a b : FS} (h : a.equiv b) (p : Path) :
    (a.removeSubtree p).equiv (b.removeSubtree p) := by
  intro q
  rw [FS.lookup_removeSubtree, FS.lookup_removeSubtree, h]

theorem copy_entry_congr {e : SrcEntry} {d : Path} {a b : FS} (h : a.equiv b) :
    (copy_entry e d a).1.equiv (copy_entry e d b).1 ∧
      (copy_entry e d a).2 = (copy_entry e d b).2 := by
  by_cases hr : e.rel = []
  · rw [copy_entry_root hr, copy_entry_root hr]
    exact ⟨h, rfl⟩
  · cases hf : e.ftype
    · rw [copy_entry_dir hr hf, copy_entry_dir hr hf]
      refine ⟨?_, rfl⟩
      show (if a.pathExists (d ++ e.rel) then a else a.mkdirs (d ++ e.rel)).equiv
        (if b.pathExists (d ++ e.rel) then b else b.mkdirs (d ++ e.rel))
      rw [equiv_pathExists h]
      by_cases hb : b.pathExists (d ++ e.rel) = true
      · rw [if_pos hb, if_pos hb]
        exact h
      · rw [if_neg hb, if_neg hb]
        exact equiv_mkdirs h _
    · cases hrd : e.readable
      · rw [copy_entry_file_bad hr hf hrd, copy_entry_file_bad hr hf hrd]
        exact ⟨equiv_mkdirs h _, rfl⟩
      · rw [copy_entry_file_ok hr hf hrd, copy_entry_file_ok hr hf hrd]
        exact ⟨equiv_insert (equiv_mkdirs h _) _ _, rfl⟩
    · rw [copy_entry_other hr hf, copy_entry_other hr hf]
      exact ⟨h, rfl⟩

theorem loop_congr {results : List (Except String SrcEntry)} {d : Path} :
    ∀ {a b : FS}, a.equiv b →
      (runWalkLoop results d a).1.equiv (runWalkLoop results d b).1 ∧
        (runWalkLoop results d a).2 = (runWalkLoop results d b).2 := by
  induction results with
  | nil => intro a b h; exact ⟨h, rfl⟩
  | cons x rest ih =>
    intro a b h
    cases x with
    | ok e =>
      rw [runWalkLoop_ok, runWalkLoop_ok]
      obtain ⟨h1, h2⟩ := copy_entry_congr (e := e) (d := d) h
      obtain ⟨h3, h4⟩ := ih h1
      exact ⟨h3, by rw [h2, h4]⟩
    | error s =>
      rw [runWalkLoop_error, runWalkLoop_error]
      exact ⟨(ih h).1, rfl⟩

/-! ### Helper lemmas about the orchestration -/

theorem exec_build_ok_iff {b : BuildResult} {decode : List Nat → String} :
    execute_dotnet_build b decode = .ok () ↔
      (b.launched = true ∧ b.exitSuccess = true) := by
  rw [execute_dotnet_build]
  cases hl : b.launched <;> cases he : b.exitSuccess <;> simp

theorem exec_build_fail {b : BuildResult} {decode : List Nat → String}
    (hl : b.launched = true) (he : b.exitSuccess = false) :
    execute_dotnet_build b decode =
      .error ("Project build failed:\n" ++ decode b.stderr) := by
  rw [execute_dotnet_build, hl, he]
  rfl

theorem run_eq_runPost {inp : RunInput} (hb : buildPasses inp = true) :
    run inp = runPost inp (find_sln_file inp.dirents).isSome := by
  rw [run]
  cases hs : find_sln_file inp.dirents with
  | none => rfl
  | some s =>
    simp only [buildPasses, hs, Bool.and_eq_true] at hb
    rw [exec_build_ok_iff.mpr hb]
    rfl

theorem prepareDest_no {dest : FS} {target : Path} {na : Bool} {ui : String}
    (hex : dest.pathExists target = false) :
    prepareDest dest target na ui = some (dest.mkdirs target) := by
  rw [prepareDest, hex]
  rfl

theorem prepareDest_cancel {dest : FS} {target : Path} {ui : String}
    (hex : dest.pathExists target = true) (hc : confirm ui = false) :
    prepareDest dest target false ui = none := by
  rw [prepareDest, hex, hc]
  rfl

theorem prepareDest_yes {dest : FS} {target : Path} {na : Bool} {ui : String}
    (hex : dest.pathExists target = true)
    (h : na = true ∨ confirm ui = true) :
    prepareDest dest target na ui =
      some ((dest.removeSubtree target).mkdirs target) := by
  rcases h with h | h <;> simp [prepareDest, hex, h]

theorem targetOf_shape {inp : RunInput} {t : Path} (ht : targetOf inp = .ok t) :
    ∃ b n, t = b ++ [n] := by
  cases hn : nameOf inp with
  | error e =>
    simp only [targetOf, hn] at ht
    exact Except.noConfusion ht
  | ok n =>
    simp only [targetOf, hn, resolveTarget] at ht
    cases htd : inp.target_dir with
    | some t0 =>
      rw [htd] at ht
      exact ⟨t0, n, (Except.ok.inj ht).symm⟩
    | none =>
      rw [htd] at ht
      cases hm : inp.config_global.path_mods with
      | some m =>
        rw [hm] at ht
        exact ⟨m, n, (Except.ok.inj ht).symm⟩
      | none =>
        rw [hm] at ht
        exact Except.noConfusion ht

theorem targetOf_ne_nil {inp : RunInput} {t : Path} (ht : targetOf inp = .ok t) :
    t ≠ [] := by
  obtain ⟨b, n, rfl⟩ := targetOf_shape ht
  simp

theorem runPost_fatal {inp : RunInput} {bi : Bool} {e : String}
    (ht : targetOf inp = .error e) :
    runPost inp bi = ⟨inp.dest, .fatal e, bi⟩ := by
  rw [runPost, ht]

theorem runPost_cancelled {inp : RunInput} {bi : Bool} {t : Path}
    (ht : targetOf inp = .ok t)
    (hp : prepareDest inp.dest t inp.config_global.no_ask inp.user_input = none) :
    runPost inp bi = ⟨inp.dest, .cancelled, bi⟩ := by
  simp only [runPost, ht, hp]

theorem runPost_mirror {inp : RunInput} {bi : Bool} {t : Path} {d0 : FS}
    (ht : targetOf inp = .ok t)
    (hp : prepareDest inp.dest t inp.config_global.no_ask inp.user_input = some d0) :
    runPost inp bi =
      ⟨(mirrorPhase inp.tree inp.ign t d0).1,
        if (mirrorPhase inp.tree inp.ign t d0).2 then .completedWithErrors
          else .success,
        bi⟩ := by
  simp only [runPost, ht, hp]

theorem runPost_buildInvoked (inp : RunInput) (bi : Bool) :
    (runPost inp bi).buildInvoked = bi := by
  cases ht : targetOf inp with
  | error e => rw [runPost_fatal ht]
  | ok t =>
    cases hp : prepareDest inp.dest t inp.config_global.no_ask inp.user_input with
    | none => rw [runPost_cancelled ht hp]
    | some d => rw [runPost_mirror ht hp]

theorem getLast?_mem_loc {l : List String} {a : String} (h : l.getLast? = some a) :
    a ∈ l := by
  obtain ⟨hne, rfl⟩ :=
    List.mem_getLast?_eq_getLast (l := l) (x := a) (Option.mem_def.mpr h)
  exact List.getLast_mem hne

theorem contains_iff_mem_str {l : List String} {a : String} :
    l.contains a = true ↔ a ∈ l := by
  simp

theorem filter_entry_false_of_mem {rel : Path} (h : rel.getLastD "" ∈ denylist) :
    filter_entry rel = false := by
  rw [filter_entry, contains_iff_mem_str.mpr h]
  rfl

/-! ### The claims -/

/-- **C1.** For every source tree and ignore rule set, mirroring the source
into an empty destination yields: every file of the source not excluded by
the rules appears in the destination with identical byte content at the
identical relative path (the file conjunct holds for an arbitrary initial
destination, so existing destination files are overwritten); directories,
including empty ones, are created; every excluded path is absent; and the
walk root itself is never copied. -/
theorem C1_mirror_correct
    (tree : List SrcEntry) (ign : Path → Bool) (destRoot : Path)
    (hnd : (tree.map (·.rel)).Nodup)
    (hroot : ∀ e ∈ tree, e.rel = [] → e.ftype = FType.dir)
    (hread : ∀ e ∈ tree, e.readable = true) :
    (∀ (fs0 : FS), ∀ e ∈ tree, included ign e.rel = true → e.ftype = .file →
      (mirrorPhase tree ign destRoot fs0).1.lookup (destRoot ++ e.rel)
        = some (.file e.content)) ∧
    (∀ e ∈ tree, included ign e.rel = true → e.ftype = .dir → e.rel ≠ [] →
      (mirrorPhase tree ign destRoot (FS.empty.mkdirs destRoot)).1.lookup
        (destRoot ++ e.rel) = some .dir) ∧
    (∀ rel : Path, rel ≠ [] → included ign rel = false →
      (mirrorPhase tree ign destRoot (FS.empty.mkdirs destRoot)).1.lookup
        (destRoot ++ rel) = none) ∧
    (∀ (e : SrcEntry), e.rel = [] → ∀ fs : FS,
      copy_entry e destRoot fs = (fs, false)) := by
  refine ⟨?_, ?_, ?_, fun e he fs => copy_entry_root he destRoot fs⟩
  · intro fs0 e he hinc hf
    have hne : e.rel ≠ [] := by
      intro hz
      have hd := hroot e he hz
      rw [hf] at hd
      exact FType.noConfusion hd
    exact loop_file_lands (nodup_okRels_walkResults hnd)
      (ok_mem_walkResults.mpr (mem_walkYield.mpr ⟨he, hinc⟩)) hf (hread e he) hne
  · intro e he hinc hf hne
    refine loop_dir_lands (nodup_okRels_walkResults hnd)
      (ok_mem_walkResults.mpr (mem_walkYield.mpr ⟨he, hinc⟩)) hf hne ?_
    by_cases hm : destRoot ++ e.rel ∈ nePrefixes destRoot
    · exact Or.inr (by rw [FS.lookup_mkdirs_of_none (FS.lookup_empty _), if_pos hm])
    · exact Or.inl (by rw [FS.lookup_mkdirs_of_none (FS.lookup_empty _), if_neg hm])
  · intro rel hrel hinc
    have hnm : destRoot ++ rel ∉ nePrefixes destRoot := by
      intro hm
      have h2 := pref_length (mem_nePrefixes.mp hm).2
      rw [List.length_append] at h2
      have h3 : rel.length = 0 := by omega
      exact hrel (List.eq_nil_of_length_eq_zero h3)
    have hbase : (FS.empty.mkdirs destRoot).lookup (destRoot ++ rel) = none := by
      rw [FS.lookup_mkdirs_of_none (FS.lookup_empty _), if_neg hnm]
    by_contra hsome
    have hch : (runWalkLoop (walkResults tree ign) destRoot
        (FS.empty.mkdirs destRoot)).1.lookup (destRoot ++ rel) ≠
        (FS.empty.mkdirs destRoot).lookup (destRoot ++ rel) := by
      rw [hbase]
      exact hsome
    obtain ⟨hq0, e, hmem, hrel', hpre⟩ := loop_written hch
    have hie : included ign e.rel = true :=
      (mem_walkYield.mp (ok_mem_walkResults.mp hmem)).2
    have hrr : included ign rel = true :=
      included_pref hie (pref_cancel_left hpre)
    rw [hrr] at hinc
    exact Bool.noConfusion hinc

/-- Witness for C1: on the concrete tree, the included file arrives with
its bytes, and the `.git` directory (excluded by the denylist, hence not
`included`) is absent. -/
theorem C1_mirror_correct_witness :
    (mirrorPhase cTree cIgn ["dst"] (FS.empty.mkdirs ["dst"])).1.lookup
        (["dst"] ++ ["a", "f.txt"]) = some (.file [1, 2]) ∧
    (mirrorPhase cTree cIgn ["dst"] (FS.empty.mkdirs ["dst"])).1.lookup
        (["dst"] ++ [".git"]) = none :=
  ⟨(C1_mirror_correct cTree cIgn ["dst"] (by decide) (by decide) (by decide)).1
      (FS.empty.mkdirs ["dst"]) ⟨["a", "f.txt"], .file, [1, 2], true⟩
      (by decide) (by decide) rfl,
    (C1_mirror_correct cTree cIgn ["dst"] (by decide) (by decide)
      (by decide)).2.2.1 [".git"] (by decide) (by decide)⟩

/-- **C2.** Denylist invariant: a walk entry whose file name is `.git`,
`.gitignore`, `.rimpub-ignore` or `rimpub.toml` is excluded from the mirror
regardless of any ignore-rule contents, and after a publish that reached
the mirror no path with such a final component exists under the
destination root. -/
theorem C2_denylist_invariant
    (inp : RunInput) (t : Path)
    (hb : buildPasses inp = true)
    (ht : targetOf inp = .ok t)
    (hwf : inp.dest.wf)
    (hp : ∃ d0, prepareDest inp.dest t inp.config_global.no_ask inp.user_input
      = some d0) :
    (∀ (tree : List SrcEntry) (ign : Path → Bool) (e : SrcEntry),
      e ∈ walkYield tree ign → e.rel ≠ [] → e.rel.getLastD "" ∉ denylist) ∧
    (∀ rel : Path, rel ≠ [] → rel.getLastD "" ∈ denylist →
      (run inp).dest.lookup (t ++ rel) = none) := by
  have htne : t ≠ [] := targetOf_ne_nil ht
  constructor
  · intro tree ign e hw hne hmem
    have hfe := included_filter_entry (mem_walkYield.mp hw).2 hne
    rw [filter_entry_false_of_mem hmem] at hfe
    exact Bool.noConfusion hfe
  · intro rel hrel hmem
    obtain ⟨d0, hd0⟩ := hp
    have hnm : t ++ rel ∉ nePrefixes t := by
      intro hm
      have h2 := pref_length (mem_nePrefixes.mp hm).2
      rw [List.length_append] at h2
      have h3 : rel.length = 0 := by omega
      exact hrel (List.eq_nil_of_length_eq_zero h3)
    have hbase : d0.lookup (t ++ rel) = none := by
      rw [prepareDest] at hd0
      by_cases hex : inp.dest.pathExists t = true
      · rw [if_pos hex] at hd0
        by_cases hc : (!inp.config_global.no_ask && !(confirm inp.user_input)) = true
        · rw [if_pos hc] at hd0
          exact Option.noConfusion hd0
        · rw [if_neg hc] at hd0
          rcases Option.some.inj hd0 with rfl
          have hrm : (inp.dest.removeSubtree t).lookup (t ++ rel) = none := by
            rw [FS.lookup_removeSubtree, if_pos ⟨rel, rfl⟩]
          rw [FS.lookup_mkdirs_of_none hrm, if_neg hnm]
      · rw [if_neg hex] at hd0
        rcases Option.some.inj hd0 with rfl
        have hdn : inp.dest.lookup (t ++ rel) = none := by
          cases hq : inp.dest.lookup (t ++ rel) with
          | none => rfl
          | some v =>
            exfalso
            refine hex (hwf t (t ++ rel) htne ⟨rel, rfl⟩ ?_)
            rw [hq]
            rfl
        rw [FS.lookup_mkdirs_of_none hdn, if_neg hnm]
    rw [run_eq_runPost hb,
      runPost_mirror ht hd0]
    by_contra hsome
    have hch : (runWalkLoop (walkResults inp.tree inp.ign) t d0).1.lookup
        (t ++ rel) ≠ d0.lookup (t ++ rel) := by
      rw [hbase]
      exact hsome
    obtain ⟨hq0, e, hmem2, hrel', hpre⟩ := loop_written hch
    have hie : included inp.ign e.rel = true :=
      (mem_walkYield.mp (ok_mem_walkResults.mp hmem2)).2
    have hir : included inp.ign rel = true :=
      included_pref hie (pref_cancel_left hpre)
    have hfe := included_filter_entry hir hrel
    rw [filter_entry_false_of_mem hmem] at hfe
    exact Bool.noConfusion hfe

/-- Witness for C2: after the concrete publish no `.git` exists under the
destination root. -/
theorem C2_denylist_invariant_witness :
    (run cInp).dest.lookup (["mods", "MyMod"] ++ [".git"]) = none :=
  (C2_denylist_invariant cInp ["mods", "MyMod"] (by decide) rfl
    (fun _ _ _ _ h => Bool.noConfusion h) ⟨_, rfl⟩).2 [".git"] (by decide)
    (by decide)

/-- **C3.** When the destination exists and `no_ask` is false, a
non-affirmative stdin line makes publish return the successful cancelled
outcome with the destination untouched, while an affirmative line proceeds
to recursively delete the destination before mirroring. -/
theorem C3_confirmation_gating
    (inp : RunInput) (t : Path)
    (hb : buildPasses inp = true)
    (ht : targetOf inp = .ok t)
    (hex : inp.dest.pathExists t = true)
    (hna : inp.config_global.no_ask = false) :
    (confirm inp.user_input = false →
      (run inp).dest = inp.dest ∧ (run inp).outcome = .cancelled ∧
        ∀ msg, (run inp).outcome ≠ .fatal msg) ∧
    (confirm inp.user_input = true →
      (run inp).dest =
        (mirrorPhase inp.tree inp.ign t
          ((inp.dest.removeSubtree t).mkdirs t)).1) := by
  constructor
  · intro hc
    have hp : prepareDest inp.dest t inp.config_global.no_ask inp.user_input
        = none := by
      rw [hna]
      exact prepareDest_cancel hex hc
    rw [run_eq_runPost hb, runPost_cancelled ht hp]
    exact ⟨rfl, rfl, fun msg h => Outcome.noConfusion h⟩
  · intro hc
    have hp : prepareDest inp.dest t inp.config_global.no_ask inp.user_input
        = some ((inp.dest.removeSubtree t).mkdirs t) :=
      prepareDest_yes hex (Or.inr hc)
    rw [run_eq_runPost hb, runPost_mirror ht hp]

/-- Witness for C3: with the destination pre-populated, answering `n`
cancels with the destination untouched; answering `YES ` (affirmative after
trim and lowercase) proceeds to the delete-then-mirror result. -/
theorem C3_confirmation_gating_witness :
    ((run cInp3).dest = cInp3.dest ∧ (run cInp3).outcome = .cancelled ∧
      ∀ msg, (run cInp3).outcome ≠ .fatal msg) ∧
    (run cInp3y).dest =
      (mirrorPhase cInp3y.tree cInp3y.ign ["mods", "MyMod"]
        ((cInp3y.dest.removeSubtree ["mods", "MyMod"]).mkdirs
          ["mods", "MyMod"])).1 :=
  ⟨(C3_confirmation_gating cInp3 ["mods", "MyMod"] (by decide) rfl
      (by decide) rfl).1 (by decide),
    (C3_confirmation_gating cInp3y ["mods", "MyMod"] (by decide) rfl
      (by decide) rfl).2 (by decide)⟩

/-- **C4.** The destination root is the target-directory override when
present, else the global config's mods path; with neither, publish fails
with the configuration error before touching the destination; the resolved
project name is the final path segment. -/
theorem C4_target_resolution (inp : RunInput) (n : String)
    (hb : buildPasses inp = true) (hn : nameOf inp = .ok n) :
    (∀ t0 : Path, inp.target_dir = some t0 → targetOf inp = .ok (t0 ++ [n])) ∧
    (∀ m : Path, inp.target_dir = none →
      inp.config_global.path_mods = some m → targetOf inp = .ok (m ++ [n])) ∧
    (inp.target_dir = none → inp.config_global.path_mods = none →
      (run inp).outcome =
        .fatal "Cannot determine target directory from config or args" ∧
      (run inp).dest = inp.dest) := by
  refine ⟨?_, ?_, ?_⟩
  · intro t0 htd
    simp only [targetOf, hn, resolveTarget, htd]
  · intro m htd hm
    simp only [targetOf, hn, resolveTarget, htd, hm]
  · intro htd hm
    have ht : targetOf inp =
        .error "Cannot determine target directory from config or args" := by
      simp only [targetOf, hn, resolveTarget, htd, hm]
    rw [run_eq_runPost hb, runPost_fatal ht]
    exact ⟨rfl, rfl⟩

/-- Witness for C4: override wins; else the mods path; with neither the
run fails with the configuration error and the destination is untouched. -/
theorem C4_target_resolution_witness :
    targetOf cInp = .ok (["mods"] ++ ["MyMod"]) ∧
    targetOf cInp4b = .ok (["gm"] ++ ["MyMod"]) ∧
    (run cInp4c).outcome =
      .fatal "Cannot determine target directory from config or args" ∧
    (run cInp4c).dest = cInp4c.dest := by
  have h4c := (C4_target_resolution cInp4c "MyMod" (by decide) rfl).2.2
    rfl rfl
  exact ⟨(C4_target_resolution cInp "MyMod" (by decide) rfl).1
      ["mods"] rfl,
    (C4_target_resolution cInp4b "MyMod" (by decide) rfl).2.1
      ["gm"] rfl rfl,
    h4c.1, h4c.2⟩

/-- **C5.** The build trigger: a solution file is a regular, immediate
child with extension `sln`; absent one the step is a no-op success; the
spawned build's success is its exit status alone; a non-zero exit aborts
the whole publish with the decoded stderr in the error and the destination
untouched. -/
theorem C5_build_trigger (inp : RunInput) :
    (find_sln_file inp.dirents = none →
      run inp = runPost inp false ∧ (run inp).buildInvoked = false) ∧
    (∀ (b : BuildResult) (decode : List Nat → String),
      execute_dotnet_build b decode = .ok () ↔
        (b.launched = true ∧ b.exitSuccess = true)) ∧
    (∀ s : DirEnt, find_sln_file inp.dirents = some s →
      s.isFile = true ∧ rustExt s.name = some "sln") ∧
    (∀ s : DirEnt, find_sln_file inp.dirents = some s →
      inp.build.launched = true → inp.build.exitSuccess = false →
      run inp = ⟨inp.dest,
        .fatal ("Project build failed:\n" ++ inp.decode inp.build.stderr),
        true⟩) := by
  refine ⟨?_, fun b decode => exec_build_ok_iff, ?_, ?_⟩
  · intro hs
    have hrun : run inp = runPost inp false := by
      rw [run, hs]
    refine ⟨hrun, ?_⟩
    rw [hrun]
    exact runPost_buildInvoked inp false
  · intro s hs
    have hfind := List.find?_some hs
    simp only [Bool.and_eq_true, beq_iff_eq] at hfind
    exact hfind
  · intro s hs hl he
    rw [run, hs, exec_build_fail hl he]

/-- Witness for C5: without a solution file the build step is skipped; the
concrete failing build aborts with the decoded stderr and leaves the
destination untouched. -/
theorem C5_build_trigger_witness :
    (run cInp = runPost cInp false ∧ (run cInp).buildInvoked = false) ∧
    run cInp5 = ⟨cInp5.dest, .fatal "Project build failed:\nERR", true⟩ :=
  ⟨(C5_build_trigger cInp).1 (by decide),
    (C5_build_trigger cInp5).2.2.2 ⟨"proj.sln", true⟩ (by decide) rfl rfl⟩

/-- **C6 (counterexample).** The claim says project-config resolution
completes before the build trigger, so an unparsable project config would
mean the build is never invoked.  On this input the project config file is
present and unparsable, yet the run has invoked the build (and the parse
error surfaces only afterwards). -/
theorem C6_order_counterexample :
    cInp6.conf_file = some (.error "parse failure") ∧
    (find_sln_file cInp6.dirents).isSome = true ∧
    (run cInp6).buildInvoked = true ∧
    (run cInp6).outcome = .fatal "parse failure" :=
  ⟨rfl, by decide, by decide, by decide⟩

/-- **C6 (amended).** The GlobalConfig snapshot is taken first, but the
build trigger runs before the project config file is read: with a solution
file present and an unparsable project config, a successful external build
is invoked and only then does the publish abort with the parse error; a
failing build aborts with the build error instead. -/
theorem C6_build_before_config (inp : RunInput) (s : DirEnt) (e : String)
    (hs : find_sln_file inp.dirents = some s)
    (hconf : inp.conf_file = some (.error e)) :
    (inp.build.launched = true → inp.build.exitSuccess = true →
      run inp = ⟨inp.dest, .fatal e, true⟩) ∧
    (inp.build.launched = true → inp.build.exitSuccess = false →
      run inp = ⟨inp.dest,
        .fatal ("Project build failed:\n" ++ inp.decode inp.build.stderr),
        true⟩) := by
  constructor
  · intro hl he
    have hb : buildPasses inp = true := by
      simp [buildPasses, hs, hl, he]
    have ht : targetOf inp = .error e := by
      simp only [targetOf, nameOf, resolveConf, hconf]
    rw [run_eq_runPost hb, runPost_fatal ht, hs]
    rfl
  · intro hl he
    rw [run, hs, exec_build_fail hl he]

/-- Witness for the amended C6, at the counterexample input. -/
theorem C6_build_before_config_witness :
    run cInp6 = ⟨cInp6.dest, .fatal "parse failure", true⟩ :=
  (C6_build_before_config cInp6 ⟨"proj.sln", true⟩ "parse failure"
    (by decide) rfl).1 rfl rfl

/-- **C7.** Name resolution: a non-empty configured name wins; with no
config file (default empty name) the working directory's base name is
used; if no base name exists the operation errors; and a resolved name is
never empty when the working directory's components are nonempty. -/
theorem C7_name_resolution :
    (resolveConf none = .ok ⟨""⟩) ∧
    (∀ (wd : Path) (dn : String), wd.getLast? = some dn →
      resolveName ⟨""⟩ wd = .ok dn) ∧
    (∀ (c : PublishConf) (wd : Path), c.name ≠ "" →
      resolveName c wd = .ok c.name) ∧
    (∀ wd : Path, wd.getLast? = none →
      resolveName ⟨""⟩ wd =
        .error "Didn't configure 'name' and failed to get working directory name") ∧
    (∀ (c : PublishConf) (wd : Path) (n : String), (∀ s ∈ wd, s ≠ "") →
      resolveName c wd = .ok n → n ≠ "") := by
  refine ⟨rfl, ?_, ?_, ?_, ?_⟩
  · intro wd dn h
    simp [resolveName, h]
  · intro c wd h
    simp [resolveName, h]
  · intro wd h
    simp [resolveName, h]
  · intro c wd n hwd hres
    by_cases hc : c.name = ""
    · rw [resolveName, if_pos hc] at hres
      cases hg : wd.getLast? with
      | none =>
        rw [hg] at hres
        exact Except.noConfusion hres
      | some dn =>
        rw [hg] at hres
        rcases Except.ok.inj hres with rfl
        exact hwd dn (getLast?_mem_loc hg)
    · rw [resolveName, if_neg hc] at hres
      rcases Except.ok.inj hres with rfl
      exact hc

/-- Witness for C7: `Custom` wins over the directory name; with the
default empty name the directory basename `MyMod` is used, and it is
nonempty. -/
theorem C7_name_resolution_witness :
    resolveName ⟨"Custom"⟩ ["home", "MyMod"] = .ok "Custom" ∧
    resolveName ⟨""⟩ ["home", "MyMod"] = .ok "MyMod" ∧
    "MyMod" ≠ "" :=
  ⟨C7_name_resolution.2.2.1 ⟨"Custom"⟩ ["home", "MyMod"] (by decide),
    C7_name_resolution.2.1 ["home", "MyMod"] "MyMod" rfl,
    C7_name_resolution.2.2.2.2 ⟨""⟩ ["home", "MyMod"] "MyMod" (by decide)
      (C7_name_resolution.2.1 ["home", "MyMod"] "MyMod" rfl)⟩

/-- **C8.** Mirror-phase failures are per-entry: `any_err` is set exactly
when a walk result errored or a yielded file was unreadable; every
readable yielded file is still copied regardless of other failures; and
the publish outcome is completed-with-errors exactly when some per-entry
failure occurred, fully successful otherwise. -/
theorem C8_partial_failure
    (inp : RunInput) (t : Path) (d0 : FS)
    (hb : buildPasses inp = true)
    (ht : targetOf inp = .ok t)
    (hp : prepareDest inp.dest t inp.config_global.no_ask inp.user_input
      = some d0) :
    (∀ (results : List (Except String SrcEntry)) (d : Path) (fs : FS),
      (runWalkLoop results d fs).2 = true ↔
        (∃ s, .error s ∈ results) ∨
          ∃ e, .ok e ∈ results ∧ e.rel ≠ [] ∧ e.ftype = .file ∧
            e.readable = false) ∧
    (∀ (results : List (Except String SrcEntry)) (d : Path) (fs : FS)
      (e : SrcEntry), (okRels results).Nodup → .ok e ∈ results →
      e.ftype = .file → e.readable = true → e.rel ≠ [] →
      (runWalkLoop results d fs).1.lookup (d ++ e.rel)
        = some (.file e.content)) ∧
    ((run inp).outcome = .completedWithErrors ↔
      ∃ e ∈ walkYield inp.tree inp.ign,
        e.rel ≠ [] ∧ e.ftype = .file ∧ e.readable = false) ∧
    ((run inp).outcome = .success ↔
      ¬ ∃ e ∈ walkYield inp.tree inp.ign,
        e.rel ≠ [] ∧ e.ftype = .file ∧ e.readable = false) := by
  have hiff : (mirrorPhase inp.tree inp.ign t d0).2 = true ↔
      ∃ e ∈ walkYield inp.tree inp.ign,
        e.rel ≠ [] ∧ e.ftype = .file ∧ e.readable = false := by
    rw [mirrorPhase, loop_err]
    constructor
    · rintro (⟨s, hs⟩ | ⟨e, hmem, h1, h2, h3⟩)
      · exact absurd hs no_error_walkResults
      · exact ⟨e, ok_mem_walkResults.mp hmem, h1, h2, h3⟩
    · rintro ⟨e, hmem, h1, h2, h3⟩
      exact Or.inr ⟨e, ok_mem_walkResults.mpr hmem, h1, h2, h3⟩
  have hout : (run inp).outcome =
      if (mirrorPhase inp.tree inp.ign t d0).2 then Outcome.completedWithErrors
      else Outcome.success := by
    rw [run_eq_runPost hb, runPost_mirror ht hp]
  refine ⟨fun results d fs => loop_err,
    fun results d fs e hnd hmem hf hr hne => loop_file_lands hnd hmem hf hr hne,
    ?_, ?_⟩
  · rw [hout]
    cases hm : (mirrorPhase inp.tree inp.ign t d0).2
    · rw [hm] at hiff
      exact ⟨fun h => Outcome.noConfusion h,
        fun hR => (Bool.false_ne_true (hiff.mpr hR)).elim⟩
    · rw [hm] at hiff
      exact ⟨fun _ => hiff.mp rfl, fun _ => rfl⟩
  · rw [hout]
    cases hm : (mirrorPhase inp.tree inp.ign t d0).2
    · rw [hm] at hiff
      exact ⟨fun _ hR => Bool.false_ne_true (hiff.mpr hR), fun _ => rfl⟩
    · rw [hm] at hiff
      exact ⟨fun h => Outcome.noConfusion h, fun hn => (hn (hiff.mp rfl)).elim⟩

/-- Witness for C8: with one unreadable file among readable ones the run
completes with errors; with everything readable it fully succeeds. -/
theorem C8_partial_failure_witness :
    (run cInp8).outcome = .completedWithErrors ∧
    (run cInp).outcome = .success :=
  ⟨((C8_partial_failure cInp8 ["mods", "MyMod"]
        (cInp8.dest.mkdirs ["mods", "MyMod"]) (by decide) rfl rfl).2.2.1).mpr
      ⟨⟨["bad.txt"], .file, [], false⟩, by decide, by decide, rfl, rfl⟩,
    ((C8_partial_failure cInp ["mods", "MyMod"]
        (cInp.dest.mkdirs ["mods", "MyMod"]) (by decide) rfl rfl).2.2.2).mpr
      (by decide)⟩

/-- Clearing the target subtree of a mirrored destination and recreating
the target directory restores the state the mirror started from. -/
theorem republish_base_equiv
    {results : List (Except String SrcEntry)} {t : Path} {D : FS}
    (htne : t ≠ []) (hD : D.lookup t = none)
    (hDsub : ∀ q, t <+: q → q ≠ t → D.lookup q = none) :
    FS.equiv (((runWalkLoop results t (D.mkdirs t)).1.removeSubtree t).mkdirs t)
      (D.mkdirs t) := by
  intro q
  by_cases hq : t <+: q
  · by_cases hqt : q = t
    · subst hqt
      have hrm : ((runWalkLoop results q (D.mkdirs q)).1.removeSubtree q).lookup q
          = none := by
        rw [FS.lookup_removeSubtree, if_pos (pref_refl q)]
      rw [FS.lookup_mkdirs_of_none hrm, if_pos (self_mem_nePrefixes htne),
        FS.lookup_mkdirs_of_none hD, if_pos (self_mem_nePrefixes htne)]
    · have hqm : q ∉ nePrefixes t := by
        intro hm
        exact hqt (pref_antisymm (mem_nePrefixes.mp hm).2 hq)
      have hrm : ((runWalkLoop results t (D.mkdirs t)).1.removeSubtree t).lookup q
          = none := by
        rw [FS.lookup_removeSubtree, if_pos hq]
      rw [FS.lookup_mkdirs_of_none hrm, if_neg hqm,
        FS.lookup_mkdirs_of_not_mem hqm, hDsub q hq hqt]
  · have H : ∀ r, r ≠ [] → r <+: t → ((D.mkdirs t).lookup r).isSome = true :=
      fun r h1 h2 =>
        FS.lookup_mkdirs_isSome_of_mem (mem_nePrefixes.mpr ⟨h1, h2⟩)
    have hout : (runWalkLoop results t (D.mkdirs t)).1.lookup q =
        (D.mkdirs t).lookup q := loop_outside H hq
    have hrm : ((runWalkLoop results t (D.mkdirs t)).1.removeSubtree t).lookup q
        = (D.mkdirs t).lookup q := by
      rw [FS.lookup_removeSubtree, if_neg hq, hout]
    cases hv : ((runWalkLoop results t (D.mkdirs t)).1.removeSubtree t).lookup q
      with
    | some v =>
      rw [FS.lookup_mkdirs_of_isSome (by rw [hv]; rfl), hv, ← hrm, hv]
    | none =>
      rw [FS.lookup_mkdirs_of_none hv]
      by_cases hm : q ∈ nePrefixes t
      · exfalso
        have hS := @FS.lookup_mkdirs_isSome_of_mem D _ _ hm
        rw [← hrm, hv] at hS
        exact Bool.noConfusion hS
      · rw [if_neg hm, ← hrm, hv]

/-- **C9.** Idempotence: publishing again over the destination the first
publish produced (confirming deletion) yields an extensionally identical
destination, because the existing destination is recursively deleted and
recreated before mirroring. -/
theorem C9_idempotent
    (inp : RunInput) (t : Path)
    (hb : buildPasses inp = true)
    (ht : targetOf inp = .ok t)
    (hc : confirm inp.user_input = true)
    (hwf : inp.dest.wf) :
    FS.equiv (run { inp with dest := (run inp).dest }).dest (run inp).dest := by
  have htne : t ≠ [] := targetOf_ne_nil ht
  obtain ⟨D, hp1, hD, hDsub⟩ :
      ∃ D : FS, prepareDest inp.dest t inp.config_global.no_ask inp.user_input
          = some (D.mkdirs t) ∧ D.lookup t = none ∧
          ∀ q, t <+: q → q ≠ t → D.lookup q = none := by
    by_cases hex : inp.dest.pathExists t = true
    · refine ⟨inp.dest.removeSubtree t, prepareDest_yes hex (Or.inr hc), ?_, ?_⟩
      · rw [FS.lookup_removeSubtree, if_pos (pref_refl t)]
      · intro q hq _
        rw [FS.lookup_removeSubtree, if_pos hq]
    · have hexf : inp.dest.pathExists t = false := by
        cases hx : inp.dest.pathExists t
        · rfl
        · exact absurd hx hex
      refine ⟨inp.dest, prepareDest_no hexf, ?_, ?_⟩
      · cases hqv : inp.dest.lookup t with
        | none => rfl
        | some v =>
          exfalso
          refine hex ?_
          rw [FS.pathExists, hqv]
          rfl
      · intro q hq hqt
        cases hqv : inp.dest.lookup q with
        | none => rfl
        | some v =>
          exfalso
          refine hex ?_
          rw [FS.pathExists]
          exact hwf t q htne hq (by rw [hqv]; rfl)
  have hrun1 : (run inp).dest =
      (mirrorPhase inp.tree inp.ign t (D.mkdirs t)).1 := by
    rw [run_eq_runPost hb, runPost_mirror ht hp1]
  have hb2 : buildPasses { inp with dest := (run inp).dest } = true := hb
  have ht2 : targetOf { inp with dest := (run inp).dest } = .ok t := ht
  have hex2 : (run inp).dest.pathExists t = true := by
    rw [hrun1, FS.pathExists]
    exact loop_isSome (FS.lookup_mkdirs_isSome_of_mem (self_mem_nePrefixes htne))
  have hp2 : prepareDest (run inp).dest t inp.config_global.no_ask inp.user_input
      = some (((run inp).dest.removeSubtree t).mkdirs t) :=
    prepareDest_yes hex2 (Or.inr hc)
  have hrun2 : (run { inp with dest := (run inp).dest }).dest =
      (mirrorPhase inp.tree inp.ign t
        (((run inp).dest.removeSubtree t).mkdirs t)).1 := by
    rw [run_eq_runPost hb2, runPost_mirror ht2 hp2]
  rw [hrun2, hrun1]
  have hbase : FS.equiv
      (((mirrorPhase inp.tree inp.ign t (D.mkdirs t)).1.removeSubtree t).mkdirs t)
      (D.mkdirs t) :=
    republish_base_equiv htne hD hDsub
  show FS.equiv
    (runWalkLoop (walkResults inp.tree inp.ign) t
      (((mirrorPhase inp.tree inp.ign t (D.mkdirs t)).1.removeSubtree t).mkdirs
        t)).1
    (runWalkLoop (walkResults inp.tree inp.ign) t (D.mkdirs t)).1
  exact (@loop_congr (walkResults inp.tree inp.ign) t _ _ hbase).1

/-- Witness for C9: re-publishing onto the freshly published destination
gives the same destination. -/
theorem C9_idempotent_witness :
    FS.equiv (run { cInp9 with dest := (run cInp9).dest }).dest
      (run cInp9).dest :=
  C9_idempotent cInp9 ["mods", "MyMod"] (by decide) rfl (by decide)
    (fun _ _ _ _ h => Bool.noConfusion h)

/-- **C10.** `Config::set` is atomic on error: an unrecognized key, or
`no_ask` with a non-boolean value, returns the error with the in-memory
config and the config file untouched; on success the mutated config is
immediately persisted. -/
theorem C10_config_set_atomic (key value : String) (st : ConfigStore) :
    (toLowerStr key ≠ "path_game" → toLowerStr key ≠ "no_ask" →
      configSet key value st =
        (st, some ("Unexpected key " ++ key ++ " provided"))) ∧
    (toLowerStr key = "no_ask" → parseRustBool value = none →
      configSet key value st =
        (st, some ("Invalid value for 'no_ask': expected a boolean, got '"
          ++ value ++ "'"))) ∧
    (toLowerStr key = "path_game" →
      configSet key value st =
        (⟨{ st.mem with path_game := some (String.mk (trimChars value.data)) },
            some { st.mem with
              path_game := some (String.mk (trimChars value.data)) }⟩,
          none)) ∧
    (∀ b : Bool, toLowerStr key = "no_ask" → parseRustBool value = some b →
      configSet key value st =
        (⟨{ st.mem with no_ask := b }, some { st.mem with no_ask := b }⟩,
          none)) := by
  refine ⟨?_, ?_, ?_, ?_⟩
  · intro h1 h2
    have ha : setAction key value st.mem =
        .error ("Unexpected key " ++ key ++ " provided") := by
      rw [setAction, if_neg h1, if_neg h2]
    rw [configSet, ha]
  · intro h1 h2
    have hne : toLowerStr key ≠ "path_game" := by
      rw [h1]
      decide
    have ha : setAction key value st.mem =
        .error ("Invalid value for 'no_ask': expected a boolean, got '"
          ++ value ++ "'") := by
      rw [setAction, if_neg hne, if_pos h1, h2]
    rw [configSet, ha]
  · intro h1
    have ha : setAction key value st.mem =
        .ok { st.mem with path_game := some (String.mk (trimChars value.data)) } := by
      rw [setAction, if_pos h1]
    rw [configSet, ha]
  · intro b h1 h2
    have hne : toLowerStr key ≠ "path_game" := by
      rw [h1]
      decide
    have ha : setAction key value st.mem = .ok { st.mem with no_ask := b } := by
      rw [setAction, if_neg hne, if_pos h1, h2]
    rw [configSet, ha]

/-- Witness for C10: a non-boolean `no_ask` value changes nothing and
reports the error; a valid one mutates and persists at once. -/
theorem C10_config_set_atomic_witness :
    configSet "no_ask" "maybe" ⟨⟨none, false⟩, none⟩ =
      (⟨⟨none, false⟩, none⟩,
        some "Invalid value for 'no_ask': expected a boolean, got 'maybe'") ∧
    configSet "no_ask" "true" ⟨⟨none, false⟩, none⟩ =
      (⟨⟨none, true⟩, some ⟨none, true⟩⟩, none) :=
  ⟨(C10_config_set_atomic "no_ask" "maybe" ⟨⟨none, false⟩, none⟩).2.1
      (by decide) rfl,
    (C10_config_set_atomic "no_ask" "true" ⟨⟨none, false⟩, none⟩).2.2.2 true
      (by decide) rfl⟩

end Rimpub
